import Mathlib

/-
Shallow embedding of src/minc.c (MinCoinsToTotal).

Conventions of the embedding:
  * C uint32 values are modelled as Nat with uint32 wrap-around made explicit
    wherever the C source performs 32-bit arithmetic: the product a*b inside
    find_lcm (computed in uint32 before widening to uint64), the sums
    qpt + coins[c] of the search loop, the seeding guard rt + lcm and cursor
    increment rt += max_coin, and the reconstruction walk's subtraction
    total -= totals[total] all reduce modulo 2^32 (u32add / u32sub below).
  * qsort with int32_cmp is modelled as sorting by the signed int32
    reinterpretation of each value (int32Key): values at or above 2^31 compare
    as negative numbers and sort first, exactly as the C comparator orders the
    pairs it compares without signed overflow.  (For pairs whose int
    subtraction overflows, the C program itself has undefined behaviour; the
    model extends the signed order consistently.)
  * The C arrays totals[] and queue[] (calloc-ed to target+1 entries) are
    modelled as total functions Nat -> Nat that are 0 everywhere initially,
    with pointwise functional update.
  * Loops become fuel-based structural recursions.  The fuel supplied by the
    top-level wrappers (target+1 seeding steps, target+2 dequeue steps,
    target+1 walk steps) dominates the number of iterations the corresponding
    C loop performs in every terminating, in-bounds execution: each dequeue
    consumes one of at most target+1 queue slots, and seeding/walk cursors
    progress monotonically whenever their arithmetic does not wrap.
-/

/-- uint32 addition: wraps modulo 2^32, as the C sums qpt + coins[c],
rt + lcm and rt + max_coin do. -/
def u32add (a b : ℕ) : ℕ := (a + b) % 4294967296

/-- uint32 subtraction a - b (for b a uint32 value), wrapping modulo 2^32 as
the C walk's total -= totals[total] does. -/
def u32sub (a b : ℕ) : ℕ := (a + 4294967296 - b % 4294967296) % 4294967296

/-- Signed int32 reinterpretation key: int32_cmp orders uint32 values by their
signed reinterpretation, so v is ordered by (v + 2^31) mod 2^32 (values at or
above 2^31 become negative and sort first). -/
def int32Key (v : ℕ) : ℕ := (v % 4294967296 + 2147483648) % 4294967296

/-- Pointwise update of a table, modelling an array store a[i] = v. -/
def upd (f : ℕ → ℕ) (i v : ℕ) : ℕ → ℕ := fun x => if x = i then v else f x

/-- State of min_coins_to_total: the reachability table totals[], the frontier
queue[], and the number of live queue entries (queue_max in the C code). -/
structure SearchState where
  totals : ℕ → ℕ
  queue : ℕ → ℕ
  queueMax : ℕ

/-- Euclid loop of find_gcd: while (b) { rem = a % b; a = b; b = rem; }.
The fuel argument only bounds the iteration count; b strictly decreases each
step, so any fuel larger than b lets the loop run to completion. -/
def gcdLoop : ℕ → ℕ → ℕ → ℕ
  | 0, a, _ => a
  | fuel + 1, a, b => if b = 0 then a else gcdLoop fuel b (a % b)

/-- find_gcd from src/minc.c lines 36-49. -/
def find_gcd (a b : ℕ) : ℕ :=
  if a = 0 then b else gcdLoop (b + 1) a b

/-- find_lcm from src/minc.c lines 53-65.  The C source computes
uint64_t lcm = a * b with a and b of type uint32_t, so the product wraps
modulo 2^32 before the division by the gcd; the final overflow test compares
against UINT32_MAX. -/
def find_lcm (a b : ℕ) : ℕ :=
  if a = 0 ∨ b = 0 then 0
  else
    let l := ((a * b) % 4294967296) / find_gcd a b
    if 4294967295 < l then 0 else l

/-- get_coins_lcm from src/minc.c lines 69-81: fold find_lcm over the coin
set starting from coins[0]. -/
def get_coins_lcm (coins : List ℕ) : ℕ :=
  match coins with
  | [] => 0
  | c :: rest => rest.foldl find_lcm c

/-- Sort modelling qsort(coins, n_coins, sizeof, int32_cmp)
(src/minc.c lines 28-32 and 98): int32_cmp compares by signed int32
reinterpretation, i.e. by int32Key.  For denominations below 2^31 this is the
ordinary ascending order. -/
def sortCoins (l : List ℕ) : List ℕ :=
  List.insertionSort (fun a b => int32Key a ≤ int32Key b) l

instance : IsTotal ℕ (fun a b => int32Key a ≤ int32Key b) :=
  ⟨fun a b => Nat.le_total (int32Key a) (int32Key b)⟩

instance : IsTrans ℕ (fun a b => int32Key a ≤ int32Key b) :=
  ⟨fun _ _ _ h1 h2 => Nat.le_trans h1 h2⟩

/-- coins[n_coins - 1], the largest coin of a sorted non-empty set. -/
def lastCoin : List ℕ → ℕ
  | [] => 0
  | [a] => a
  | _ :: b :: rest => lastCoin (b :: rest)

/-- Both tables calloc-ed to zero; queue_max starts at 1 (src/minc.c line 125),
so the single live queue slot initially holds sum 0. -/
def initState : SearchState :=
  { totals := fun _ => 0, queue := fun _ => 0, queueMax := 1 }

/-- Seeding loop of src/minc.c lines 115-118:
for (rt = max_coin; rt + lcm <= target; rt += max_coin)
  { totals[rt] = max_coin; queue[0] = rt; }.
Both the guard sum and the cursor increment are uint32 additions; each
iteration overwrites queue slot 0, exactly as the C code does. -/
def seedLoop (maxCoin lcm target : ℕ) : ℕ → ℕ → SearchState → SearchState
  | 0, _, st => st
  | fuel + 1, rt, st =>
    if u32add rt lcm ≤ target then
      seedLoop maxCoin lcm target fuel (u32add rt maxCoin)
        { totals := upd st.totals rt maxCoin
          queue := upd st.queue 0 rt
          queueMax := st.queueMax }
    else st

/-- Search-space setup of src/minc.c lines 97-120, applied to the sorted coin
set: prune coins above a small target, otherwise (more than two coins) attempt
the LCM leap-forward seeding.  Returns the retained coin set and the state the
breadth-first loop starts from. -/
def setupSorted (sorted : List ℕ) (target : ℕ) : List ℕ × SearchState :=
  if target < lastCoin sorted then
    (sorted.takeWhile (fun c => decide (c ≤ target)), initState)
  else if 2 < sorted.length then
    if 0 < get_coins_lcm sorted then
      (sorted,
        seedLoop (lastCoin sorted) (get_coins_lcm sorted) target (target + 1)
          (lastCoin sorted) initState)
    else (sorted, initState)
  else (sorted, initState)

/-- Body of src/minc.c lines 129-132: on a fresh sum total, record the coin
in the reachability table and append the sum to the frontier queue; on an
already reached sum, do nothing. -/
def markStep (total c : ℕ) (st : SearchState) : SearchState :=
  if st.totals total = 0 then
    { totals := upd st.totals total c
      queue := upd st.queue st.queueMax total
      queueMax := st.queueMax + 1 }
  else st

/-- Inner expansion loop of src/minc.c lines 126-138: try each coin in
sorted order against the dequeued sum qpt; the sum total = qpt + coins[c] is a
uint32 addition; totals and queue are updated on a fresh sum; reaching the
target short-circuits (the Bool component); a sum above the target breaks
out. -/
def expand (target qpt : ℕ) : List ℕ → SearchState → SearchState × Bool
  | [], st => (st, false)
  | c :: rest, st =>
    if u32add qpt c ≤ target then
      if u32add qpt c = target then (markStep (u32add qpt c) c st, true)
      else expand target qpt rest (markStep (u32add qpt c) c st)
    else (st, false)

/-- Outer breadth-first loop of src/minc.c line 125: process queue slots in
FIFO order until the cursor catches up with queue_max or the target is hit. -/
def bfsLoop (target : ℕ) (coins : List ℕ) : ℕ → ℕ → SearchState → SearchState
  | 0, _, st => st
  | fuel + 1, queuePos, st =>
    if queuePos < st.queueMax then
      if (expand target (st.queue queuePos) coins st).2 then
        (expand target (st.queue queuePos) coins st).1
      else
        bfsLoop target coins fuel (queuePos + 1) (expand target (st.queue queuePos) coins st).1
    else st

/-- Full search on an already sorted coin set: setup then breadth-first loop. -/
def runSearchSorted (sorted : List ℕ) (target : ℕ) : List ℕ × SearchState :=
  ((setupSorted sorted target).1,
    bfsLoop target (setupSorted sorted target).1 (target + 2) 0 (setupSorted sorted target).2)

/-- Search reached by min_coins_to_total on raw (unsorted) input. -/
def runSearch (coins : List ℕ) (target : ℕ) : List ℕ × SearchState :=
  runSearchSorted (sortCoins coins) target

/-- Setup phase reached by min_coins_to_total on raw input (state just before
the breadth-first loop starts). -/
def setup (coins : List ℕ) (target : ℕ) : List ℕ × SearchState :=
  setupSorted (sortCoins coins) target

/-- Backward reconstruction walk of src/minc.c lines 149 and 153-155:
starting from a sum, repeatedly collect totals[t] and subtract it (a uint32
subtraction), until 0. -/
def walk (totals : ℕ → ℕ) : ℕ → ℕ → List ℕ
  | 0, _ => []
  | fuel + 1, t =>
    if t = 0 then [] else totals t :: walk totals fuel (u32sub t (totals t))

/-- Result extraction of src/minc.c lines 144-169 on a sorted coin set:
none models the "No possible set of coins" outcome; otherwise the reported
coin count together with the reconstructed denominations in the summarised
ascending order the program prints. -/
def minCoinsAux (sorted : List ℕ) (target : ℕ) : Option (ℕ × List ℕ) :=
  if (runSearchSorted sorted target).2.totals target = 0 then none
  else
    some ((walk (runSearchSorted sorted target).2.totals (target + 1) target).length,
      sortCoins (walk (runSearchSorted sorted target).2.totals (target + 1) target))

/-- min_coins_to_total from src/minc.c lines 84-177, as a function from the
denomination set and target to the reported outcome. -/
def min_coins_to_total (coins : List ℕ) (target : ℕ) : Option (ℕ × List ℕ) :=
  minCoinsAux (sortCoins coins) target

/-- Variant of the search with the LCM-seeding step disabled, keeping
everything else (sort, pruning, breadth-first loop, reconstruction): the
frontier starts from sum 0 only.  Written from the specification words that
call the seeding a pure optimisation whose removal must not change results. -/
def setupSortedNoseed (sorted : List ℕ) (target : ℕ) : List ℕ × SearchState :=
  if target < lastCoin sorted then
    (sorted.takeWhile (fun c => decide (c ≤ target)), initState)
  else (sorted, initState)

/-- Breadth-first search state reached by the seeding-disabled variant. -/
def runNoseed (sorted : List ℕ) (target : ℕ) : SearchState :=
  bfsLoop target (setupSortedNoseed sorted target).1 (target + 2) 0
    (setupSortedNoseed sorted target).2

/-- Seeding-disabled counterpart of min_coins_to_total. -/
def min_coins_noseed (coins : List ℕ) (target : ℕ) : Option (ℕ × List ℕ) :=
  if (runNoseed (sortCoins coins) target).totals target = 0 then none
  else
    some ((walk (runNoseed (sortCoins coins) target).totals (target + 1) target).length,
      sortCoins (walk (runNoseed (sortCoins coins) target).totals (target + 1) target))

/-- Reference predicate: canMake coins k t is true when t is the sum of at
most k values drawn (with repetition) from coins.  Used to state what the
true minimum number of coins is, independently of the search under test. -/
def canMake (coins : List ℕ) : ℕ → ℕ → Bool
  | 0, t => decide (t = 0)
  | k + 1, t =>
    decide (t = 0) || coins.any (fun c => decide (0 < c) && decide (c ≤ t) && canMake coins k (t - c))

/-- Model of the C library atoi digit scan: accumulate decimal digits, stop at
the first non-digit. -/
def digitsVal : List Char → ℕ → ℕ
  | [], acc => acc
  | c :: cs, acc =>
    if c.isDigit then digitsVal cs (acc * 10 + (c.toNat - 48)) else acc

/-- Model of atoi as used by main (src/minc.c line 190): optional sign then
decimal digits, as a mathematical integer. -/
def atoiInt (s : String) : Int :=
  match s.data with
  | '-' :: rest => - (digitsVal rest 0 : Int)
  | '+' :: rest => (digitsVal rest 0 : Int)
  | cs => (digitsVal cs 0 : Int)

/-- target = (uint32_t)atoi(argv[1]) from src/minc.c line 190: conversion of
the int result to uint32_t reduces it modulo 2^32. -/
def parseTarget (s : String) : ℕ :=
  (atoiInt s % 4294967296).toNat

/-- Validation of src/minc.c lines 192-195: the search runs exactly when the
parsed uint32 target is not below 1. -/
def mainInvokesSearch (s : String) : Bool :=
  decide (1 ≤ parseTarget s)

/-- Invariant of the reachability table relative to the retained coin set cs:
every marked sum lies in [1, target], its recorded coin is a retained
denomination between 1 and the sum itself, and removing that coin lands on 0
or on another marked sum. -/
def TotInv (cs : List ℕ) (target : ℕ) (T : ℕ → ℕ) : Prop :=
  ∀ s, T s ≠ 0 →
    1 ≤ s ∧ s ≤ target ∧ T s ∈ cs ∧ 1 ≤ T s ∧ T s ≤ s ∧
    (s - T s = 0 ∨ T (s - T s) ≠ 0)

/-- Invariant of the frontier queue: every slot holds a sum at most target
that is either 0 (the base case) or marked in the reachability table. -/
def QueInv (target : ℕ) (st : SearchState) : Prop :=
  ∀ i, st.queue i ≤ target ∧ (st.queue i = 0 ∨ st.totals (st.queue i) ≠ 0)

/-- Combined search-state invariant. -/
def SearchInv (cs : List ℕ) (target : ℕ) (st : SearchState) : Prop :=
  TotInv cs target st.totals ∧ QueInv target st

/-- Table monotonicity: every entry marked in T1 still holds the same value
in T2 (no marked entry is ever overwritten). -/
def MarkMono (T1 T2 : ℕ → ℕ) : Prop :=
  ∀ s, T1 s ≠ 0 → T2 s = T1 s

/-- The part of the table invariant that makes the backward reconstruction
walk strictly decrease and stop at 0. -/
def WalkTable (T : ℕ → ℕ) : Prop :=
  ∀ s, T s ≠ 0 → 1 ≤ T s ∧ T s ≤ s ∧ (s - T s = 0 ∨ T (s - T s) ≠ 0)

/-- Summary property of the final reachability table of a search run: the
table invariant holds, the breadth-first phase never overwrote an entry made
by the setup/seeding phase, and whenever the target is marked, the backward
walk collects positive denominations summing exactly to the target (so it
strictly decreases and terminates at 0). -/
def ReachTableOk (coins : List ℕ) (target : ℕ) : Prop :=
  TotInv (runSearch coins target).1 target (runSearch coins target).2.totals ∧
  MarkMono (setup coins target).2.totals (runSearch coins target).2.totals ∧
  ((runSearch coins target).2.totals target ≠ 0 →
    (walk (runSearch coins target).2.totals (target + 1) target).sum = target ∧
    ∀ c ∈ walk (runSearch coins target).2.totals (target + 1) target, 1 ≤ c)

theorem upd_apply_self (f : ℕ → ℕ) (i v : ℕ) : upd f i v i = v := by
  simp [upd]

theorem upd_apply_ne (f : ℕ → ℕ) (i v x : ℕ) (h : x ≠ i) : upd f i v x = f x := by
  simp [upd, h]

theorem upd_ne_zero (f : ℕ → ℕ) (i v x : ℕ) (hv : v ≠ 0) (hx : f x ≠ 0) :
    upd f i v x ≠ 0 := by
  unfold upd
  split
  · exact hv
  · exact hx

theorem markStep_totals_pres (total c : ℕ) (st : SearchState) (s : ℕ)
    (hs : st.totals s ≠ 0) : (markStep total c st).totals s = st.totals s := by
  unfold markStep
  split
  · rename_i h0
    exact upd_apply_ne _ _ _ _ (fun he => hs (by rw [he]; exact h0))
  · rfl

theorem markStep_inv (cs : List ℕ) (target qpt c : ℕ) (st : SearchState)
    (hinv : SearchInv cs target st) (hc : c ∈ cs) (hc1 : 1 ≤ c) (hle : qpt + c ≤ target)
    (hq : qpt = 0 ∨ st.totals qpt ≠ 0) :
    SearchInv cs target (markStep (qpt + c) c st) := by
  obtain ⟨htot, hque⟩ := hinv
  unfold markStep
  split
  · rename_i h0
    constructor
    · intro s hs
      dsimp only at hs ⊢
      by_cases hse : s = qpt + c
      · subst hse
        refine ⟨by omega, hle, ?_, ?_, ?_, ?_⟩
        · rw [upd_apply_self]; exact hc
        · rw [upd_apply_self]; exact hc1
        · rw [upd_apply_self]; omega
        · rw [upd_apply_self]
          have hqc : qpt + c - c = qpt := by omega
          rw [hqc]
          rcases hq with h | h
          · exact Or.inl h
          · refine Or.inr ?_
            rw [upd_apply_ne _ _ _ _ (by omega)]
            exact h
      · rw [upd_apply_ne _ _ _ _ hse] at hs ⊢
        obtain ⟨a1, a2, a3, a4, a5, a6⟩ := htot s hs
        refine ⟨a1, a2, a3, a4, a5, ?_⟩
        rcases a6 with h | h
        · exact Or.inl h
        · exact Or.inr (upd_ne_zero _ _ _ _ (by omega) h)
    · intro i
      dsimp only
      by_cases hie : i = st.queueMax
      · subst hie
        rw [upd_apply_self]
        refine ⟨hle, Or.inr ?_⟩
        rw [upd_apply_self]
        omega
      · rw [upd_apply_ne _ _ _ _ hie]
        obtain ⟨b1, b2⟩ := hque i
        refine ⟨b1, ?_⟩
        rcases b2 with h | h
        · exact Or.inl h
        · exact Or.inr (upd_ne_zero _ _ _ _ (by omega) h)
  · exact ⟨htot, hque⟩

theorem expand_markMono (target qpt : ℕ) (rest : List ℕ) :
    ∀ st : SearchState, MarkMono st.totals (expand target qpt rest st).1.totals := by
  induction rest with
  | nil => intro st s hs; rfl
  | cons c rest ih =>
    intro st s hs
    show (expand target qpt (c :: rest) st).1.totals s = st.totals s
    simp only [expand]
    split
    · split
      · exact markStep_totals_pres (u32add qpt c) c st s hs
      · have hp := markStep_totals_pres (u32add qpt c) c st s hs
        have hs2 : (markStep (u32add qpt c) c st).totals s ≠ 0 := by rw [hp]; exact hs
        exact (ih (markStep (u32add qpt c) c st) s hs2).trans hp
    · rfl

theorem expand_inv (cs : List ℕ) (target qpt : ℕ) (htar : target < 2147483648) :
    ∀ (rest : List ℕ) (st : SearchState),
    (∀ x ∈ rest, x ∈ cs ∧ 1 ≤ x ∧ x < 2147483648) →
    SearchInv cs target st → (qpt = 0 ∨ st.totals qpt ≠ 0) →
    SearchInv cs target (expand target qpt rest st).1 := by
  intro rest
  induction rest with
  | nil => intro st _ hinv _; exact hinv
  | cons c rest ih =>
    intro st hmem hinv hq
    have hqle : qpt ≤ target := by
      rcases hq with h | h
      · omega
      · exact (hinv.1 qpt h).2.1
    obtain ⟨hcm, hc1, hc31⟩ := hmem c (List.mem_cons_self c rest)
    have hid : u32add qpt c = qpt + c := by
      unfold u32add
      omega
    show SearchInv cs target (expand target qpt (c :: rest) st).1
    simp only [expand]
    rw [hid]
    split
    · rename_i hle
      have hstep := markStep_inv cs target qpt c st hinv hcm hc1 hle hq
      split
      · exact hstep
      · refine ih (markStep (qpt + c) c st)
          (fun x hx => hmem x (List.mem_cons_of_mem c hx)) hstep ?_
        rcases hq with h | h
        · exact Or.inl h
        · refine Or.inr ?_
          rw [markStep_totals_pres (qpt + c) c st qpt h]
          exact h
    · exact hinv

theorem bfsLoop_markMono (target : ℕ) (cs : List ℕ) :
    ∀ (fuel qp : ℕ) (st : SearchState),
    MarkMono st.totals (bfsLoop target cs fuel qp st).totals := by
  intro fuel
  induction fuel with
  | zero => intro qp st s hs; rfl
  | succ fuel ih =>
    intro qp st s hs
    show (bfsLoop target cs (fuel + 1) qp st).totals s = st.totals s
    simp only [bfsLoop]
    split
    · split
      · exact expand_markMono target (st.queue qp) cs st s hs
      · have hp := expand_markMono target (st.queue qp) cs st s hs
        have hs2 : (expand target (st.queue qp) cs st).1.totals s ≠ 0 := by
          rw [hp]; exact hs
        exact (ih (qp + 1) (expand target (st.queue qp) cs st).1 s hs2).trans hp
    · rfl

theorem bfsLoop_inv (cs : List ℕ) (target : ℕ)
    (hcs : ∀ x ∈ cs, 1 ≤ x ∧ x < 2147483648) (htar : target < 2147483648) :
    ∀ (fuel qp : ℕ) (st : SearchState), SearchInv cs target st →
    SearchInv cs target (bfsLoop target cs fuel qp st) := by
  intro fuel
  induction fuel with
  | zero => intro qp st hinv; exact hinv
  | succ fuel ih =>
    intro qp st hinv
    show SearchInv cs target (bfsLoop target cs (fuel + 1) qp st)
    simp only [bfsLoop]
    split
    · have hq := hinv.2 qp
      have hexp := expand_inv cs target (st.queue qp) htar cs st
        (fun x hx => ⟨hx, (hcs x hx).1, (hcs x hx).2⟩) hinv hq.2
      split
      · exact hexp
      · exact ih (qp + 1) (expand target (st.queue qp) cs st).1 hexp
    · exact hinv

theorem seedLoop_inv (mc lcmv target : ℕ) (cs : List ℕ) (hmc : mc ∈ cs) (h1 : 1 ≤ mc)
    (hmt : mc ≤ target) (htar : target < 2147483648) :
    ∀ (fuel rt : ℕ) (st : SearchState), SearchInv cs target st → mc ≤ rt →
    rt + lcmv < 4294967296 →
    (rt - mc = 0 ∨ st.totals (rt - mc) ≠ 0) →
    SearchInv cs target (seedLoop mc lcmv target fuel rt st) := by
  intro fuel
  induction fuel with
  | zero => intro rt st hinv _ _ _; exact hinv
  | succ fuel ih =>
    intro rt st hinv hrt hbound hpar
    obtain ⟨htot, hque⟩ := hinv
    show SearchInv cs target (seedLoop mc lcmv target (fuel + 1) rt st)
    have hid : u32add rt lcmv = rt + lcmv := by
      unfold u32add
      omega
    simp only [seedLoop]
    rw [hid]
    split
    · rename_i hguard
      have hid2 : u32add rt mc = rt + mc := by
        unfold u32add
        omega
      rw [hid2]
      refine ih (rt + mc) _ ⟨?_, ?_⟩ (by omega) (by omega) ?_
      · intro s hs
        dsimp only at hs ⊢
        by_cases hse : s = rt
        · subst hse
          rw [upd_apply_self] at hs ⊢
          refine ⟨by omega, by omega, hmc, h1, hrt, ?_⟩
          rcases hpar with h | h
          · exact Or.inl h
          · refine Or.inr ?_
            rw [upd_apply_ne _ _ _ _ (by omega)]
            exact h
        · rw [upd_apply_ne _ _ _ _ hse] at hs ⊢
          obtain ⟨a1, a2, a3, a4, a5, a6⟩ := htot s hs
          refine ⟨a1, a2, a3, a4, a5, ?_⟩
          rcases a6 with h | h
          · exact Or.inl h
          · exact Or.inr (upd_ne_zero _ _ _ _ (by omega) h)
      · intro i
        dsimp only
        by_cases hie : i = 0
        · subst hie
          rw [upd_apply_self]
          refine ⟨by omega, Or.inr ?_⟩
          rw [upd_apply_self]
          omega
        · rw [upd_apply_ne _ _ _ _ hie]
          obtain ⟨b1, b2⟩ := hque i
          refine ⟨b1, ?_⟩
          rcases b2 with h | h
          · exact Or.inl h
          · exact Or.inr (upd_ne_zero _ _ _ _ (by omega) h)
      · dsimp only
        refine Or.inr ?_
        have hr : rt + mc - mc = rt := by omega
        rw [hr, upd_apply_self]
        omega
    · exact ⟨htot, hque⟩

theorem seedLoop_markMono (mc lcmv target : ℕ) (h1 : 1 ≤ mc) (hmt : mc ≤ target)
    (htar : target < 2147483648) :
    ∀ (fuel rt : ℕ) (st : SearchState) (s : ℕ), s < rt → rt + lcmv < 4294967296 →
    st.totals s ≠ 0 →
    (seedLoop mc lcmv target fuel rt st).totals s = st.totals s := by
  intro fuel
  induction fuel with
  | zero => intro rt st s _ _ _; rfl
  | succ fuel ih =>
    intro rt st s hlt hbound hs
    show (seedLoop mc lcmv target (fuel + 1) rt st).totals s = st.totals s
    have hid : u32add rt lcmv = rt + lcmv := by
      unfold u32add
      omega
    simp only [seedLoop]
    rw [hid]
    split
    · rename_i hguard
      have hid2 : u32add rt mc = rt + mc := by
        unfold u32add
        omega
      rw [hid2]
      have hupd : upd st.totals rt mc s = st.totals s :=
        upd_apply_ne _ _ _ _ (by omega)
      have hs2 : upd st.totals rt mc s ≠ 0 := by rw [hupd]; exact hs
      have hrec := ih (rt + mc)
        { totals := upd st.totals rt mc, queue := upd st.queue 0 rt, queueMax := st.queueMax }
        s (by omega) (by omega) hs2
      exact hrec.trans hupd
    · rfl

theorem initState_inv (cs : List ℕ) (target : ℕ) : SearchInv cs target initState := by
  constructor
  · intro s hs
    exact absurd rfl hs
  · intro i
    exact ⟨Nat.zero_le target, Or.inl rfl⟩

theorem lastCoin_mem : ∀ (l : List ℕ), l ≠ [] → lastCoin l ∈ l := by
  intro l
  induction l with
  | nil => intro h; exact absurd rfl h
  | cons a t ih =>
    intro _
    cases t with
    | nil => simp [lastCoin]
    | cons b u =>
      have hm := ih (by simp)
      simp only [lastCoin]
      exact List.mem_cons_of_mem a hm

theorem mem_of_mem_takeWhile (p : ℕ → Bool) :
    ∀ (l : List ℕ) (x : ℕ), x ∈ l.takeWhile p → x ∈ l := by
  intro l
  induction l with
  | nil => intro x hx; simp at hx
  | cons a t ih =>
    intro x hx
    cases hpa : p a with
    | false => simp [List.takeWhile_cons, hpa] at hx
    | true =>
      simp only [List.takeWhile_cons, hpa, if_true] at hx
      rcases List.mem_cons.mp hx with h | h
      · exact h ▸ List.mem_cons_self a t
      · exact List.mem_cons_of_mem a (ih x h)

theorem mem_sortCoins {l : List ℕ} {x : ℕ} (h : x ∈ sortCoins l) : x ∈ l :=
  (List.perm_insertionSort (fun a b => int32Key a ≤ int32Key b) l).subset h

theorem sortCoins_bounds {l : List ℕ} (h : ∀ c ∈ l, 1 ≤ c ∧ c < 2147483648) :
    ∀ c ∈ sortCoins l, 1 ≤ c ∧ c < 2147483648 :=
  fun c hc => h c (mem_sortCoins hc)

theorem sorted_key_unique : ∀ (l1 l2 : List ℕ), List.Perm l1 l2 →
    List.Sorted (fun a b => int32Key a ≤ int32Key b) l1 →
    List.Sorted (fun a b => int32Key a ≤ int32Key b) l2 →
    (∀ x ∈ l1, x < 4294967296) → l1 = l2 := by
  intro l1
  induction l1 with
  | nil =>
    intro l2 h _ _ _
    exact (List.Perm.eq_nil h.symm).symm
  | cons a t1 ih =>
    intro l2 h hs1 hs2 hlt
    cases l2 with
    | nil => exact absurd (List.Perm.eq_nil h) (by simp)
    | cons b t2 =>
      have hma : a ∈ b :: t2 := h.subset (List.mem_cons_self a t1)
      have hmb : b ∈ a :: t1 := h.symm.subset (List.mem_cons_self b t2)
      have hab : a = b := by
        rcases List.mem_cons.mp hma with h1 | h1
        · exact h1
        rcases List.mem_cons.mp hmb with h2 | h2
        · exact h2.symm
        have hr1 : int32Key a ≤ int32Key b := (List.sorted_cons.mp hs1).1 b h2
        have hr2 : int32Key b ≤ int32Key a := (List.sorted_cons.mp hs2).1 a h1
        have ha32 : a < 4294967296 := hlt a (List.mem_cons_self a t1)
        have hb32 : b < 4294967296 := hlt b hmb
        have hk : int32Key a = int32Key b := Nat.le_antisymm hr1 hr2
        unfold int32Key at hk
        omega
      subst hab
      have hpt : List.Perm t1 t2 := List.Perm.cons_inv h
      have hrec := ih t2 hpt (List.sorted_cons.mp hs1).2 (List.sorted_cons.mp hs2).2
        (fun x hx => hlt x (List.mem_cons_of_mem a hx))
      rw [hrec]

theorem sortCoins_eq_of_perm (l1 l2 : List ℕ) (h32 : ∀ x ∈ l1, x < 4294967296)
    (h : List.Perm l1 l2) : sortCoins l1 = sortCoins l2 := by
  refine sorted_key_unique (sortCoins l1) (sortCoins l2) ?_
    (List.sorted_insertionSort _ l1) (List.sorted_insertionSort _ l2) ?_
  · exact (List.perm_insertionSort _ l1).trans (h.trans (List.perm_insertionSort _ l2).symm)
  · exact fun x hx => h32 x (mem_sortCoins hx)

theorem setupSorted_inv (sorted : List ℕ) (target : ℕ)
    (hpos : ∀ c ∈ sorted, 1 ≤ c ∧ c < 2147483648)
    (htar : target < 2147483648)
    (hlcm : target + get_coins_lcm sorted < 4294967296) :
    SearchInv (setupSorted sorted target).1 target (setupSorted sorted target).2 ∧
    ∀ x ∈ (setupSorted sorted target).1, 1 ≤ x ∧ x < 2147483648 := by
  unfold setupSorted
  split
  · exact ⟨initState_inv _ _, fun x hx => hpos x (mem_of_mem_takeWhile _ _ _ hx)⟩
  · rename_i hnlt
    split
    · split
      · rename_i hlen _
        have hne : sorted ≠ [] := by
          intro h
          rw [h] at hlen
          simp at hlen
        have hmc : lastCoin sorted ∈ sorted := lastCoin_mem sorted hne
        refine ⟨?_, hpos⟩
        refine seedLoop_inv (lastCoin sorted) (get_coins_lcm sorted) target sorted hmc
          (hpos _ hmc).1 (by omega) htar (target + 1) (lastCoin sorted) initState
          (initState_inv _ _) (Nat.le_refl _) (by omega) (Or.inl (Nat.sub_self _))
      · exact ⟨initState_inv _ _, hpos⟩
    · exact ⟨initState_inv _ _, hpos⟩

theorem runSearchSorted_inv (sorted : List ℕ) (target : ℕ)
    (hpos : ∀ c ∈ sorted, 1 ≤ c ∧ c < 2147483648)
    (htar : target < 2147483648)
    (hlcm : target + get_coins_lcm sorted < 4294967296) :
    SearchInv (runSearchSorted sorted target).1 target (runSearchSorted sorted target).2 := by
  obtain ⟨hinv, hpos2⟩ := setupSorted_inv sorted target hpos htar hlcm
  exact bfsLoop_inv (setupSorted sorted target).1 target hpos2 htar (target + 2) 0
    (setupSorted sorted target).2 hinv

theorem walk_spec (T : ℕ → ℕ) (hT : WalkTable T) :
    ∀ (fuel t : ℕ), t ≤ fuel → t < 4294967296 → (t = 0 ∨ T t ≠ 0) →
    (walk T fuel t).sum = t ∧ ∀ c ∈ walk T fuel t, 1 ≤ c := by
  intro fuel
  induction fuel with
  | zero =>
    intro t ht _ _
    have h0 : t = 0 := Nat.le_zero.mp ht
    subst h0
    simp [walk]
  | succ fuel ih =>
    intro t ht h32 hd
    by_cases h0 : t = 0
    · subst h0
      simp [walk]
    · rcases hd with h | h
      · exact absurd h h0
      obtain ⟨h1, h2, h3⟩ := hT t h
      have hsub : u32sub t (T t) = t - T t := by
        unfold u32sub
        omega
      have hrec := ih (t - T t) (by omega) (by omega) h3
      constructor
      · show (walk T (fuel + 1) t).sum = t
        simp only [walk, if_neg h0, List.sum_cons, hsub]
        omega
      · intro c hc
        simp only [walk, if_neg h0, hsub] at hc
        rcases List.mem_cons.mp hc with hh | hh
        · omega
        · exact hrec.2 c hh

/-- C1: refuted.  For the denomination set {1, 2000194, 4000374} (which
contains the value 1) and target 4000388, min_coins_to_total reports 15 coins
(one 4000374 plus fourteen 1s), although two coins suffice
(2000194 + 2000194 = 4000388), so the reported count is not the true minimum.
The 32-bit product inside find_lcm wraps, get_coins_lcm returns 7 instead of
the real LCM, and the bogus leap-forward seed at 4000374 cuts the search off
from the two-coin solution. -/
theorem minc_nonminimal_count :
    min_coins_to_total [1, 2000194, 4000374] 4000388 =
      some (15, [1, 1, 1, 1, 1, 1, 1, 1, 1, 1, 1, 1, 1, 1, 4000374]) ∧
    canMake [1, 2000194, 4000374] 2 4000388 = true ∧ 2 < 15 :=
  ⟨by decide, by decide, by decide⟩

/-- C2 (amended): whenever min_coins_to_total reports a solution, the
reconstructed denominations sum exactly to the target, provided none of the
uint32 additions of the search wraps: every denomination is positive and
below 2^31, the target is below 2^31, and target plus the computed coin-set
LCM stays below 2^32 (so the seeding guard cannot wrap either).  The
unrestricted claim is refuted by minc_sum_invariant_cex. -/
theorem minc_sum_invariant (coins : List ℕ) (target nr : ℕ) (res : List ℕ)
    (hpos : ∀ c ∈ coins, 1 ≤ c ∧ c < 2147483648)
    (htar : target < 2147483648)
    (hlcm : target + get_coins_lcm (sortCoins coins) < 4294967296)
    (h : min_coins_to_total coins target = some (nr, res)) :
    res.sum = target := by
  unfold min_coins_to_total minCoinsAux at h
  by_cases h0 : (runSearchSorted (sortCoins coins) target).2.totals target = 0
  · rw [if_pos h0] at h
    exact absurd h (by simp)
  · rw [if_neg h0] at h
    simp only [Option.some.injEq, Prod.mk.injEq] at h
    obtain ⟨hnr, hres⟩ := h
    have hinv := runSearchSorted_inv (sortCoins coins) target (sortCoins_bounds hpos) htar hlcm
    have hwt : WalkTable (runSearchSorted (sortCoins coins) target).2.totals := by
      intro s hs
      obtain ⟨_, _, _, a4, a5, a6⟩ := hinv.1 s hs
      exact ⟨a4, a5, a6⟩
    have hw := walk_spec _ hwt (target + 1) target (by omega) (by omega) (Or.inr h0)
    have hperm :
        List.Perm
          (sortCoins (walk (runSearchSorted (sortCoins coins) target).2.totals (target + 1) target))
          (walk (runSearchSorted (sortCoins coins) target).2.totals (target + 1) target) :=
      List.perm_insertionSort _ _
    rw [← hres]
    exact (List.Perm.sum_eq hperm).trans hw.1

/-- C2 witness: the amended theorem applied to denominations {1, 2, 5} and
target 4, where the program reports 2 coins [2, 2] summing to 4. -/
theorem minc_sum_invariant_witness :
    (∀ c ∈ ([1, 2, 5] : List ℕ), 1 ≤ c ∧ c < 2147483648) ∧
    4 < 2147483648 ∧
    4 + get_coins_lcm (sortCoins [1, 2, 5]) < 4294967296 ∧
    min_coins_to_total [1, 2, 5] 4 = some (2, [2, 2]) ∧
    List.sum [2, 2] = 4 :=
  ⟨by decide, by decide, by decide, by decide,
    minc_sum_invariant [1, 2, 5] 4 2 [2, 2] (by decide) (by decide) (by decide) (by decide)⟩

/-- C2 counterexample: with denominations {2147483649, 4294967292} and target
4294967294 the program reports a solution of 3 coins
{2147483649, 2147483649, 4294967292}, whose sum is 8589934590 = target + 2^32,
not the target: the uint32 sum 2147483649 + 2147483649 wraps to 2 during the
search and the walk subtraction 2 - 2147483649 wraps back, so the reported
multiset does not sum to the target. -/
theorem minc_sum_invariant_cex :
    min_coins_to_total [2147483649, 4294967292] 4294967294 =
      some (3, [2147483649, 2147483649, 4294967292]) ∧
    List.sum [2147483649, 2147483649, 4294967292] ≠ 4294967294 :=
  ⟨by decide, by decide⟩

/-- C3: refuted.  For denominations {6, 14, 21} and target 64 the program
reports the Infeasible outcome even though 64 is expressible as a non-negative
combination (6*6 + 14*2 = 64, eight coins), because the leap-forward seeding
replaces the frontier start 0 by seed 21 and 64 - 21 = 43 is not expressible. -/
theorem minc_infeasible_on_expressible_target :
    min_coins_to_total [6, 14, 21] 64 = none ∧ canMake [6, 14, 21] 8 64 = true :=
  ⟨by decide, by decide⟩

/-- C4: refuted.  Disabling the LCM-seeding step changes the reported outcome:
on denominations {6, 14, 21} with target 64 the seeded search reports
Infeasible while the unseeded search reports 8 coins. -/
theorem minc_seeding_changes_result :
    min_coins_to_total [6, 14, 21] 64 = none ∧
    min_coins_noseed [6, 14, 21] 64 = some (8, [6, 6, 6, 6, 6, 6, 14, 14]) :=
  ⟨by decide, by decide⟩

/-- C5: refuted.  With denominations {1, 2, 3} and target 12 the seeding fast
path runs (12 >= 3, three coins, LCM 6) and marks both seeds 3 and 6 as
reached-by-3, but each iteration writes the seed into queue slot 0, so after
seeding the single live frontier slot (queue_max = 1) holds only the last
seed 6; seed 3 is never expanded, which shows in the final table: sum 4 = 3+1
stays unmarked. -/
theorem minc_seed_frontier_holds_only_last :
    (setup [1, 2, 3] 12).2.totals 3 = 3 ∧
    (setup [1, 2, 3] 12).2.totals 6 = 3 ∧
    (setup [1, 2, 3] 12).2.queue 0 = 6 ∧
    (setup [1, 2, 3] 12).2.queueMax = 1 ∧
    (runSearch [1, 2, 3] 12).2.totals 4 = 0 := by
  refine ⟨by decide, by decide, by decide, by decide, by decide⟩

/-- C6: refuted.  find_lcm computes the product a*b in 32-bit arithmetic
before widening, so for a = 65536 and b = 65537 (whose every positive common
multiple, in particular the true LCM 65536*65537, exceeds UINT32_MAX) it
returns the wrapped value 65536 instead of the documented overflow result 0. -/
theorem find_lcm_misses_overflow :
    find_lcm 65536 65537 = 65536 ∧
    ∀ m : ℕ, 0 < m → 65536 ∣ m → 65537 ∣ m → 4294967295 < m := by
  constructor
  · decide
  · intro m hm h1 h2
    obtain ⟨b, hb⟩ := h2
    have hb1 : (65536 : ℕ) ∣ 65537 * b := hb ▸ h1
    have hb2 : (65536 : ℕ) ∣ 65536 * b := Dvd.intro b rfl
    have hdiff : (65536 : ℕ) ∣ b := by
      have hd := Nat.dvd_sub' hb1 hb2
      have he : 65537 * b - 65536 * b = b := by omega
      rwa [he] at hd
    obtain ⟨t, ht⟩ := hdiff
    have ht1 : 1 ≤ t := by
      rcases Nat.eq_zero_or_pos t with h | h
      · subst h
        omega
      · exact h
    have hm2 : m = 4295032832 * t := by
      rw [hb, ht]
      ring
    have : 4295032832 * 1 ≤ 4295032832 * t := Nat.mul_le_mul_left _ ht1
    omega

/-- C6 witness: the bound applied to the concrete common multiple
65536 * 65537 = 4295032832. -/
theorem find_lcm_misses_overflow_witness :
    4294967295 < 4295032832 ∧ find_lcm 65536 65537 = 65536 :=
  ⟨find_lcm_misses_overflow.2 4295032832 (by norm_num) ⟨65537, by norm_num⟩
      ⟨65536, by norm_num⟩,
    find_lcm_misses_overflow.1⟩

/-- C7: for the built-in denomination set {1,2,5,10,20,50,100,200} and target
65 the program reports 3 coins, namely one 5, one 10 and one 50. -/
theorem minc_australian_target65 :
    min_coins_to_total [1, 2, 5, 10, 20, 50, 100, 200] 65 = some (3, [5, 10, 50]) := by
  decide

/-- C8: the result of min_coins_to_total is invariant under permutations of
the denomination list (of uint32 values), because the list is sorted
internally with the int32_cmp order before any use. -/
theorem minc_input_order_irrelevant (l1 l2 : List ℕ) (target : ℕ)
    (h32 : ∀ c ∈ l1, c < 4294967296) (h : List.Perm l1 l2) :
    min_coins_to_total l1 target = min_coins_to_total l2 target := by
  unfold min_coins_to_total
  rw [sortCoins_eq_of_perm l1 l2 h32 h]

/-- C8 witness: applied to [2, 1] and [1, 2] with target 3, both yielding
2 coins [1, 2]. -/
theorem minc_input_order_irrelevant_witness :
    (∀ c ∈ ([2, 1] : List ℕ), c < 4294967296) ∧
    min_coins_to_total [2, 1] 3 = min_coins_to_total [1, 2] 3 ∧
    min_coins_to_total [1, 2] 3 = some (2, [1, 2]) :=
  ⟨by decide,
    minc_input_order_irrelevant [2, 1] [1, 2] 3 (by decide) (List.Perm.swap 1 2 []),
    by decide⟩

/-- C9: refuted.  The argument string "-1" does not denote a positive integer,
yet main accepts it: atoi returns -1, the cast to uint32_t turns it into
4294967295, the check target < 1 passes, and the search is invoked with
target 4294967295. -/
theorem main_accepts_minus_one :
    parseTarget "-1" = 4294967295 ∧ mainInvokesSearch "-1" = true :=
  ⟨by decide, by decide⟩

/-- C10 (amended): under the no-wrap provisos (denominations positive and
below 2^31, target below 2^31, target plus the computed coin-set LCM below
2^32) the final reachability table satisfies the claimed invariant: every
marked sum in [1, target] records a retained denomination bounded by the sum
whose removal lands on 0 or a marked sum; entries written by the seeding phase
are never overwritten by the search; a breadth-first step never overwrites a
marked entry (unconditionally); the seeding loop never overwrites entries
below its cursor whenever its guard sum does not wrap; and from a marked
target the backward walk collects positive coins summing to the target (hence
strictly decreases and terminates at 0).  The unrestricted claim is refuted by
minc_table_invariant_cex. -/
theorem minc_table_invariant (coins : List ℕ) (target : ℕ)
    (hpos : ∀ c ∈ coins, 1 ≤ c ∧ c < 2147483648)
    (htar : target < 2147483648)
    (hlcm : target + get_coins_lcm (sortCoins coins) < 4294967296) :
    ReachTableOk coins target ∧
    (∀ (tgt : ℕ) (cs : List ℕ) (fuel qp : ℕ) (st : SearchState),
      MarkMono st.totals (bfsLoop tgt cs fuel qp st).totals) ∧
    (∀ (mc lcmv tgt fuel rt : ℕ) (st : SearchState) (s : ℕ),
      1 ≤ mc → mc ≤ tgt → tgt < 2147483648 → rt + lcmv < 4294967296 → s < rt →
      st.totals s ≠ 0 → (seedLoop mc lcmv tgt fuel rt st).totals s = st.totals s) := by
  refine ⟨⟨?_, ?_, ?_⟩, ?_, ?_⟩
  · exact (runSearchSorted_inv (sortCoins coins) target (sortCoins_bounds hpos) htar hlcm).1
  · exact bfsLoop_markMono target (setup coins target).1 (target + 2) 0 (setup coins target).2
  · intro h0
    have hinv := runSearchSorted_inv (sortCoins coins) target (sortCoins_bounds hpos) htar hlcm
    have hwt : WalkTable (runSearchSorted (sortCoins coins) target).2.totals := by
      intro s hs
      obtain ⟨_, _, _, a4, a5, a6⟩ := hinv.1 s hs
      exact ⟨a4, a5, a6⟩
    exact walk_spec _ hwt (target + 1) target (by omega) (by omega) (Or.inr h0)
  · intro tgt cs fuel qp st
    exact bfsLoop_markMono tgt cs fuel qp st
  · intro mc lcmv tgt fuel rt st s h1 hmt htgt hbound hlt hs
    exact seedLoop_markMono mc lcmv tgt h1 hmt htgt fuel rt st s hlt hbound hs

/-- C10 witness: the amended invariant theorem applied to denominations
{2, 3} and target 7. -/
theorem minc_table_invariant_witness :
    ((∀ c ∈ ([2, 3] : List ℕ), 1 ≤ c ∧ c < 2147483648) ∧
      7 < 2147483648 ∧ 7 + get_coins_lcm (sortCoins [2, 3]) < 4294967296) ∧
    (ReachTableOk [2, 3] 7 ∧
      (∀ (tgt : ℕ) (cs : List ℕ) (fuel qp : ℕ) (st : SearchState),
        MarkMono st.totals (bfsLoop tgt cs fuel qp st).totals) ∧
      (∀ (mc lcmv tgt fuel rt : ℕ) (st : SearchState) (s : ℕ),
        1 ≤ mc → mc ≤ tgt → tgt < 2147483648 → rt + lcmv < 4294967296 → s < rt →
        st.totals s ≠ 0 → (seedLoop mc lcmv tgt fuel rt st).totals s = st.totals s)) :=
  ⟨⟨by decide, by decide, by decide⟩,
    minc_table_invariant [2, 3] 7 (by decide) (by decide) (by decide)⟩

/-- C10 counterexample: with denominations {2147483649, 4294967292} and
target 4294967294 the search's uint32 sum 2147483649 + 2147483649 wraps to 2,
so the final reachability table holds totals[2] = 2147483649, violating the
claimed bound totals[s] <= s for the marked sum 2 in [1, target]. -/
theorem minc_table_invariant_cex :
    (runSearch [2147483649, 4294967292] 4294967294).2.totals 2 = 2147483649 ∧
    ¬(2147483649 ≤ 2) :=
  ⟨by decide, by decide⟩
